import Mathlib

/-!
Shallow embedding of the example-api sports-data service
(polling scheduler, provider health tracker, data aggregator)
together with theorems settling the specification claims.

Sources embedded:
- src/providers/base.ts        (BaseProvider health tracking)
- src/providers/aggregator.ts  (DataAggregator)
- src/polling/polling-manager.ts (PollingManager)

Modelling conventions:
- JavaScript numbers that carry fractional data (odds, confidence,
  error rate) are modelled as rationals; integer counters as Nat/Int.
- ISO timestamp strings compared through Date objects are modelled as
  Nat epoch values; the comparison in the source is strict and so is
  the model.
- JavaScript Map preserves insertion order (set on a fresh key appends,
  set on an existing key keeps its position, iteration follows that
  order), so maps are modelled as ordered association lists.
- Fallible stages are modelled with Except; an uncaught exception is an
  Except.error result.
-/

namespace ExampleApi

/-! ### Ordered association lists (JavaScript Map model) -/

def lookupA {α : Type} (k : String) : List (String × α) → Option α
  | [] => none
  | (k₂, v) :: rest => if k₂ = k then some v else lookupA k rest

def updateA {α : Type} (k : String) (v : α) : List (String × α) → List (String × α)
  | [] => []
  | (k₂, v₂) :: rest =>
      if k₂ = k then (k₂, v) :: rest else (k₂, v₂) :: updateA k v rest

theorem lookupA_append_some {α : Type} {k : String} {v : α} {l₁ l₂ : List (String × α)}
    (h : lookupA k l₁ = some v) : lookupA k (l₁ ++ l₂) = some v := by
  induction l₁ with
  | nil => simp [lookupA] at h
  | cons p rest ih =>
    obtain ⟨k₂, v₂⟩ := p
    simp only [lookupA, List.cons_append] at h ⊢
    by_cases hk : k₂ = k
    · simpa [hk] using h
    · simp only [hk, if_false] at h ⊢
      exact ih h

theorem lookupA_append_none {α : Type} {k : String} {l₁ l₂ : List (String × α)}
    (h : lookupA k l₁ = none) : lookupA k (l₁ ++ l₂) = lookupA k l₂ := by
  induction l₁ with
  | nil => simp
  | cons p rest ih =>
    obtain ⟨k₂, v₂⟩ := p
    simp only [lookupA, List.cons_append] at h ⊢
    by_cases hk : k₂ = k
    · simp [hk] at h
    · simp only [hk, if_false] at h ⊢
      exact ih h

theorem lookupA_updateA_self {α : Type} {k : String} {v₀ v : α} {l : List (String × α)}
    (h : lookupA k l = some v₀) : lookupA k (updateA k v l) = some v := by
  induction l with
  | nil => simp [lookupA] at h
  | cons p rest ih =>
    obtain ⟨k₂, v₂⟩ := p
    simp only [lookupA, updateA] at h ⊢
    by_cases hk : k₂ = k
    · simp [hk, lookupA]
    · simp only [hk, if_false] at h ⊢
      simpa [lookupA, hk] using ih h

theorem lookupA_updateA_ne {α : Type} {k k₂ : String} {v : α} {l : List (String × α)}
    (hne : k₂ ≠ k) : lookupA k₂ (updateA k v l) = lookupA k₂ l := by
  induction l with
  | nil => simp [updateA]
  | cons p rest ih =>
    obtain ⟨k₃, v₃⟩ := p
    simp only [updateA]
    by_cases hk : k₃ = k
    · subst hk
      have hne₂ : ¬ k₃ = k₂ := fun hc => hne hc.symm
      simp [lookupA, hne₂]
    · simp only [hk, if_false, lookupA]
      by_cases hk₂ : k₃ = k₂
      · simp [hk₂]
      · simp [hk₂, ih]

theorem updateA_map_fst {α : Type} {k : String} {v : α} {l : List (String × α)} :
    (updateA k v l).map Prod.fst = l.map Prod.fst := by
  induction l with
  | nil => simp [updateA]
  | cons p rest ih =>
    obtain ⟨k₂, v₂⟩ := p
    simp only [updateA]
    by_cases hk : k₂ = k
    · simp [hk]
    · simp [hk, ih]

theorem lookupA_eq_none_of_not_mem {α : Type} {k : String} {l : List (String × α)}
    (h : k ∉ l.map Prod.fst) : lookupA k l = none := by
  induction l with
  | nil => rfl
  | cons p rest ih =>
    obtain ⟨k₂, v₂⟩ := p
    simp only [List.map_cons, List.mem_cons] at h
    push_neg at h
    have h1 : ¬ k₂ = k := fun hc => h.1 hc.symm
    simp [lookupA, h1, ih h.2]

theorem not_mem_of_lookupA_eq_none {α : Type} {k : String} {l : List (String × α)}
    (h : lookupA k l = none) : k ∉ l.map Prod.fst := by
  induction l with
  | nil => simp
  | cons p rest ih =>
    obtain ⟨k₂, v₂⟩ := p
    simp only [lookupA] at h
    by_cases hk : k₂ = k
    · simp [hk] at h
    · simp only [hk, if_false] at h
      have h1 : ¬ k = k₂ := fun hc => hk hc.symm
      simp [List.mem_cons, h1, ih h]

theorem lookupA_of_mem_nodup {α : Type} {k : String} {a : α} {l : List (String × α)}
    (hnd : (l.map Prod.fst).Nodup) (hm : (k, a) ∈ l) : lookupA k l = some a := by
  induction l with
  | nil => simp at hm
  | cons p rest ih =>
    obtain ⟨k₂, v₂⟩ := p
    simp only [List.map_cons, List.nodup_cons] at hnd
    rcases List.mem_cons.mp hm with h | h
    · have hk : k₂ = k := (congrArg Prod.fst h).symm
      have hv : v₂ = a := (congrArg Prod.snd h).symm
      subst hk
      subst hv
      simp [lookupA]
    · have hk : k₂ ≠ k := by
        intro hc
        subst hc
        exact hnd.1 (List.mem_map.mpr ⟨(k₂, a), h, rfl⟩)
      simp [lookupA, hk, ih hnd.2 h]

/-! ### JavaScript Math helpers -/

/-- Math.min on (non-NaN) numbers. -/
def mathMin (a b : ℚ) : ℚ := if a ≤ b then a else b

/-- Math.max on (non-NaN) numbers. -/
def mathMax (a b : ℚ) : ℚ := if a ≤ b then b else a

/-- Math.abs on (non-NaN) numbers. -/
def mathAbs (a : ℚ) : ℚ := if a < 0 then -a else a

theorem mathMin_le_left (a b : ℚ) : mathMin a b ≤ a := by
  rw [mathMin]
  split
  · exact le_refl a
  · exact le_of_not_le (by assumption)

theorem mathMin_le_right (a b : ℚ) : mathMin a b ≤ b := by
  rw [mathMin]
  split
  · assumption
  · exact le_refl b

theorem le_mathMin (a b c : ℚ) (ha : c ≤ a) (hb : c ≤ b) : c ≤ mathMin a b := by
  rw [mathMin]
  split
  · exact ha
  · exact hb

theorem le_mathMax_left (a b : ℚ) : a ≤ mathMax a b := by
  rw [mathMax]
  split
  · assumption
  · exact le_refl a

theorem le_mathMax_right (a b : ℚ) : b ≤ mathMax a b := by
  rw [mathMax]
  split
  · exact le_refl b
  · exact le_of_not_le (by assumption)

theorem mathMax_le (a b c : ℚ) (ha : a ≤ c) (hb : b ≤ c) : mathMax a b ≤ c := by
  rw [mathMax]
  split
  · exact hb
  · exact ha

theorem mathMax_cases (a b : ℚ) : mathMax a b = a ∨ mathMax a b = b := by
  rw [mathMax]
  split
  · exact Or.inr rfl
  · exact Or.inl rfl

theorem mathAbs_nonneg (a : ℚ) : 0 ≤ mathAbs a := by
  rw [mathAbs]
  split
  · linarith
  · exact le_of_not_lt (by assumption)

/-! ### Provider health tracker (src/providers/base.ts) -/

inductive HealthStatus
  | healthy
  | degraded
  | down
deriving DecidableEq, Repr

/-- Mutable health record owned by a provider (interface ProviderHealth).
The response-time rolling window and averageResponseTime are maintained by
the separate recordResponseTime method, which neither of the embedded
transitions reads, and are omitted. -/
structure ProviderHealth where
  status : HealthStatus
  lastSuccess : Option Nat
  lastFailure : Option Nat
  consecutiveFailures : Nat
  errorRate : ℚ
deriving DecidableEq, Repr

/-- Health record installed by the BaseProvider constructor. -/
def initialHealth : ProviderHealth :=
  { status := .healthy
    lastSuccess := none
    lastFailure := none
    consecutiveFailures := 0
    errorRate := 0 }

/-- BaseProvider.recordSuccess: stamp lastSuccess, reset the failure streak,
then recompute status from the (unchanged) errorRate. -/
def recordSuccess (now : Nat) (h : ProviderHealth) : ProviderHealth :=
  { h with
    lastSuccess := some now
    consecutiveFailures := 0
    status :=
      if h.errorRate > 1/2 then .degraded
      else if h.errorRate > 1/10 then .degraded
      else .healthy }

/-- BaseProvider.recordFailure: stamp lastFailure, increment the failure
streak, apply the threshold ladder (leaving status unchanged when the new
streak is at most 1), then recompute errorRate = min(1, streak/10). -/
def recordFailure (now : Nat) (h : ProviderHealth) : ProviderHealth :=
  let cf := h.consecutiveFailures + 1
  { h with
    lastFailure := some now
    consecutiveFailures := cf
    status :=
      if cf > 3 then .down
      else if cf > 1 then .degraded
      else h.status
    errorRate := mathMin 1 ((cf : ℚ) / 10) }

/-- One fetch outcome as seen by the health tracker (makeRequest calls
recordSuccess on a parsed 2xx response and recordFailure on any throw). -/
inductive FetchOutcome
  | success (now : Nat)
  | failure (now : Nat)
deriving DecidableEq, Repr

def applyOutcome (h : ProviderHealth) : FetchOutcome → ProviderHealth
  | .success now => recordSuccess now h
  | .failure now => recordFailure now h

/-- Health record after a sequence of fetch outcomes, starting from the
constructor state. -/
def runOutcomes (outs : List FetchOutcome) : ProviderHealth :=
  outs.foldl applyOutcome initialHealth

theorem recordSuccess_cf (now : Nat) (h : ProviderHealth) :
    (recordSuccess now h).consecutiveFailures = 0 := rfl

theorem recordSuccess_status (now : Nat) (h : ProviderHealth) :
    (recordSuccess now h).status =
      if h.errorRate > 1/2 then .degraded
      else if h.errorRate > 1/10 then .degraded
      else .healthy := rfl

theorem recordSuccess_status_ne_down (now : Nat) (h : ProviderHealth) :
    (recordSuccess now h).status ≠ .down := by
  rw [recordSuccess_status]
  split
  · simp
  · split
    · simp
    · simp

theorem recordFailure_cf (now : Nat) (h : ProviderHealth) :
    (recordFailure now h).consecutiveFailures = h.consecutiveFailures + 1 := rfl

theorem recordFailure_status (now : Nat) (h : ProviderHealth) :
    (recordFailure now h).status =
      if h.consecutiveFailures + 1 > 3 then .down
      else if h.consecutiveFailures + 1 > 1 then .degraded
      else h.status := rfl

/-- The part of the claimed health invariant that the code maintains. -/
def StatusLadder (h : ProviderHealth) : Prop :=
  (h.consecutiveFailures > 3 → h.status = .down) ∧
  (1 < h.consecutiveFailures ∧ h.consecutiveFailures ≤ 3 → h.status = .degraded) ∧
  (h.status = .down → 3 < h.consecutiveFailures)

theorem statusLadder_init : StatusLadder initialHealth := by
  refine ⟨?_, ?_, ?_⟩ <;> simp [initialHealth, StatusLadder]

theorem statusLadder_step (h : ProviderHealth) (o : FetchOutcome) (hI : StatusLadder h) :
    StatusLadder (applyOutcome h o) := by
  obtain ⟨h₁, h₂, h₃⟩ := hI
  cases o with
  | success now =>
    simp only [applyOutcome]
    refine ⟨?_, ?_, ?_⟩
    · intro hc
      rw [recordSuccess_cf] at hc
      omega
    · rintro ⟨hc, -⟩
      rw [recordSuccess_cf] at hc
      omega
    · intro hd
      exact absurd hd (recordSuccess_status_ne_down now h)
  | failure now =>
    simp only [applyOutcome]
    have hcf := recordFailure_cf now h
    have hst := recordFailure_status now h
    by_cases c3 : h.consecutiveFailures + 1 > 3
    · refine ⟨?_, ?_, ?_⟩
      · intro _
        rw [hst, if_pos c3]
      · rintro ⟨-, hc⟩
        rw [hcf] at hc
        omega
      · intro _
        rw [hcf]
        omega
    · by_cases c1 : h.consecutiveFailures + 1 > 1
      · refine ⟨?_, ?_, ?_⟩
        · intro hc
          rw [hcf] at hc
          omega
        · intro _
          rw [hst, if_neg c3, if_pos c1]
        · intro hd
          rw [hst, if_neg c3, if_pos c1] at hd
          exact absurd hd (by simp)
      · refine ⟨?_, ?_, ?_⟩
        · intro hc
          rw [hcf] at hc
          omega
        · rintro ⟨hc, -⟩
          rw [hcf] at hc
          omega
        · intro hd
          rw [hst, if_neg c3, if_neg c1] at hd
          have := h₃ hd
          rw [hcf]
          omega

theorem statusLadder_run (outs : List FetchOutcome) : StatusLadder (runOutcomes outs) := by
  suffices hgen : ∀ (h : ProviderHealth), StatusLadder h →
      StatusLadder (outs.foldl applyOutcome h) from hgen initialHealth statusLadder_init
  induction outs with
  | nil => exact fun h hI => hI
  | cons o rest ih => exact fun h hI => ih _ (statusLadder_step h o hI)

/-- C2 counterexample: after the outcome sequence failure, failure, success
the health record has consecutiveFailures = 0 yet status = degraded, because
recordSuccess recomputes status from the stale errorRate (0.2 > 0.1) that only
recordFailure ever updates.  This contradicts the claim that zero consecutive
failures imply status healthy and that a single success restores healthy
regardless of prior failures. -/
theorem health_success_after_failures_not_healthy :
    (runOutcomes [.failure 1, .failure 2, .success 3]).consecutiveFailures = 0 ∧
    (runOutcomes [.failure 1, .failure 2, .success 3]).status ≠ .healthy := by
  refine ⟨rfl, ?_⟩
  have hst : (runOutcomes [.failure 1, .failure 2, .success 3]).status = .degraded := by
    norm_num [runOutcomes, applyOutcome, recordFailure, recordSuccess, initialHealth, mathMin]
  rw [hst]
  decide

/-- C2 (amended): after every outcome sequence, consecutiveFailures > 3 implies
status down, 1 < consecutiveFailures ≤ 3 implies degraded, and down implies
consecutiveFailures > 3; a single success resets consecutiveFailures to 0 but
restores status healthy exactly when the (unchanged) errorRate is at most 0.1,
i.e. when the prior failure streak was at most 1 — not regardless of prior
failures. -/
theorem health_ladder_code (outs : List FetchOutcome) (h : ProviderHealth) (now : Nat) :
    ((runOutcomes outs).consecutiveFailures > 3 → (runOutcomes outs).status = .down) ∧
    (1 < (runOutcomes outs).consecutiveFailures ∧ (runOutcomes outs).consecutiveFailures ≤ 3 →
      (runOutcomes outs).status = .degraded) ∧
    ((runOutcomes outs).status = .down → 3 < (runOutcomes outs).consecutiveFailures) ∧
    (recordSuccess now h).consecutiveFailures = 0 ∧
    ((recordSuccess now h).status = .healthy ↔ h.errorRate ≤ 1/10) := by
  obtain ⟨l₁, l₂, l₃⟩ := statusLadder_run outs
  refine ⟨l₁, l₂, l₃, rfl, ?_⟩
  rw [recordSuccess_status]
  by_cases e2 : h.errorRate > 1/10
  · have e2h : ¬ h.errorRate ≤ 1/10 := not_le.mpr e2
    by_cases e1 : h.errorRate > 1/2
    · rw [if_pos e1]
      exact ⟨fun hc => absurd hc (by decide), fun hc => absurd hc e2h⟩
    · rw [if_neg e1, if_pos e2]
      exact ⟨fun hc => absurd hc (by decide), fun hc => absurd hc e2h⟩
  · have e1 : ¬ h.errorRate > 1/2 := by
      intro hc
      exact e2 (lt_trans (by norm_num) hc)
    rw [if_neg e1, if_neg e2]
    exact ⟨fun _ => not_lt.mp e2, fun _ => rfl⟩

/-- C2 witness: two consecutive failures place the tracker at
consecutiveFailures = 2, and the amended ladder yields status degraded. -/
theorem health_ladder_code_witness :
    (runOutcomes [.failure 1, .failure 2]).status = .degraded :=
  (health_ladder_code [.failure 1, .failure 2] initialHealth 0).2.1 (by decide)

/-! ### Interval resolver (PollingManager.getPollingInterval,
src/polling/polling-manager.ts) -/

/-- PollingConfig (src/providers/types.ts): the optional Record tables are
modelled as association lists; an absent table behaves like an empty one
(optional chaining makes every lookup on it undefined). -/
structure PollingConfig where
  defaultInterval : Nat
  sportIntervals : List (String × Nat)
  leagueIntervals : List (String × Nat)
  matchIntervals : List (String × Nat)
  providerIntervals : List (String × Nat)
deriving DecidableEq, Repr

/-- The params object handed to getPollingInterval. -/
structure IntervalParams where
  sport : Option String
  league : Option String
  matchIds : Option (List String)
deriving DecidableEq, Repr

/-- Match level: `params.matchIds && params.matchIds.length === 1` followed by
`if (matchInterval) return matchInterval` — a looked-up value of 0 is falsy in
JavaScript and falls through exactly like an absent key. -/
def matchLevel (config : PollingConfig) (params : IntervalParams) : Option Nat :=
  match params.matchIds with
  | some [mid] =>
    match lookupA mid config.matchIntervals with
    | some v => if v = 0 then none else some v
    | none => none
  | _ => none

/-- League level: `if (params.league)` — undefined and the empty string are
falsy — then `if (leagueInterval) return leagueInterval`. -/
def leagueLevel (config : PollingConfig) (params : IntervalParams) : Option Nat :=
  match params.league with
  | some l =>
    if l = "" then none
    else
      match lookupA l config.leagueIntervals with
      | some v => if v = 0 then none else some v
      | none => none
  | none => none

/-- Sport level, same shape as the league level. -/
def sportLevel (config : PollingConfig) (params : IntervalParams) : Option Nat :=
  match params.sport with
  | some s =>
    if s = "" then none
    else
      match lookupA s config.sportIntervals with
      | some v => if v = 0 then none else some v
      | none => none
  | none => none

/-- PollingManager.getPollingInterval: match level, then league, then sport,
then the global default. -/
def getPollingInterval (config : PollingConfig) (params : IntervalParams) : Nat :=
  match matchLevel config params with
  | some v => v
  | none =>
    match leagueLevel config params with
    | some v => v
    | none =>
      match sportLevel config params with
      | some v => v
      | none => config.defaultInterval

/-- C3 counterexample: the claim promises that the first *defined* entry wins,
but the source tests the looked-up value for truthiness, so a match-table
entry explicitly set to 0 is skipped: here matchIntervals defines the
targeted id as 0, yet resolution answers the league value 3000 instead of the
defined match value 0. -/
theorem interval_defined_zero_entry_skipped :
    lookupA "m1"
        (PollingConfig.mk 30000 [] [("nba", 3000)] [("m1", 0)] []).matchIntervals = some 0 ∧
    getPollingInterval (PollingConfig.mk 30000 [] [("nba", 3000)] [("m1", 0)] [])
        (IntervalParams.mk none (some "nba") (some ["m1"])) = 3000 ∧
    (3000 : Nat) ≠ 0 := by
  refine ⟨?_, ?_, ?_⟩ <;> decide

/-- C3 (amended): the resolved interval is the first defined *and non-zero*
entry in the order match-id table (consulted only when exactly one match id is
targeted), league table, sport table, then the global default; a defined
non-zero entry at a more specific level short-circuits the less specific
levels, keys absent from a table fall through without error, and an entry
defined as 0 falls through like an absent key. -/
theorem interval_resolution_order (config : PollingConfig) (params : IntervalParams) :
    (∀ mid v, params.matchIds = some [mid] →
      lookupA mid config.matchIntervals = some v → v ≠ 0 →
      getPollingInterval config params = v) ∧
    (∀ l v, matchLevel config params = none →
      params.league = some l → l ≠ "" →
      lookupA l config.leagueIntervals = some v → v ≠ 0 →
      getPollingInterval config params = v) ∧
    (∀ s v, matchLevel config params = none → leagueLevel config params = none →
      params.sport = some s → s ≠ "" →
      lookupA s config.sportIntervals = some v → v ≠ 0 →
      getPollingInterval config params = v) ∧
    (matchLevel config params = none → leagueLevel config params = none →
      sportLevel config params = none →
      getPollingInterval config params = config.defaultInterval) := by
  refine ⟨?_, ?_, ?_, ?_⟩
  · intro mid v hids hl hv
    have hm : matchLevel config params = some v := by
      simp [matchLevel, hids, hl, hv]
    rw [getPollingInterval, hm]
  · intro l v hm hlg hne hl hv
    have hlv : leagueLevel config params = some v := by
      simp [leagueLevel, hlg, hne, hl, hv]
    rw [getPollingInterval, hm, hlv]
  · intro s v hm hlg hsp hne hl hv
    have hsv : sportLevel config params = some v := by
      simp [sportLevel, hsp, hne, hl, hv]
    rw [getPollingInterval, hm, hlg, hsv]
  · intro hm hlg hsp
    rw [getPollingInterval, hm, hlg, hsp]

/-- C3 witness: with all four levels defined and non-zero, a single-match
request resolves to the match value. -/
theorem interval_resolution_order_witness :
    getPollingInterval
      (PollingConfig.mk 30000 [("basketball", 5000)] [("nba", 3000)] [("m7", 2000)] [])
      (IntervalParams.mk (some "basketball") (some "nba") (some ["m7"])) = 2000 :=
  (interval_resolution_order
      (PollingConfig.mk 30000 [("basketball", 5000)] [("nba", 3000)] [("m7", 2000)] [])
      (IntervalParams.mk (some "basketball") (some "nba") (some ["m7"]))).1
    "m7" 2000 rfl (by decide) (by decide)

/-! ### Data aggregator (src/providers/aggregator.ts)

Providers enter aggregation only through their id string, so the input pairs
carry the provider id in place of the provider object. -/

/-- LiveScore reading (src/providers/types.ts); the ISO timestamp string is
modelled as a Nat epoch value, matching the strict Date comparison. -/
structure LiveScore where
  matchId : String
  providerMatchId : String
  provider : String
  sport : String
  league : Option String
  homeTeam : String
  awayTeam : String
  homeScore : Int
  awayScore : Int
  period : String
  status : String
  startTime : Option String
  timestamp : Nat
deriving DecidableEq, Repr

/-- AggregatedLiveScore extends LiveScore with provenance and confidence. -/
structure AggregatedLiveScore extends LiveScore where
  sources : List String
  confidence : ℚ
deriving DecidableEq, Repr

/-- Market reading (src/providers/types.ts). -/
structure Market where
  id : String
  providerId : String
  provider : String
  sport : String
  league : Option String
  eventId : String
  eventName : String
  marketType : String
  selection : String
  odds : ℚ
  status : String
  updatedAt : String
deriving DecidableEq, Repr

/-- AggregatedMarket extends Market with provenance, best/average odds and
confidence. -/
structure AggregatedMarket extends Market where
  sources : List String
  bestOdds : ℚ
  averageOdds : ℚ
  confidence : ℚ
deriving DecidableEq, Repr

/-- Team-name normalization in createScoreKey: toLowerCase then strip every
character outside [a-z0-9]. -/
def normalizeName (s : String) : String :=
  String.mk ((s.data.map Char.toLower).filter fun c => c.isLower || c.isDigit)

/-- DataAggregator.createScoreKey. -/
def createScoreKey (s : LiveScore) : String :=
  s.sport ++ ":" ++ normalizeName s.homeTeam ++ ":" ++ normalizeName s.awayTeam

/-- DataAggregator.createMarketKey. -/
def createMarketKey (m : Market) : String :=
  m.eventId ++ ":" ++ m.marketType ++ ":" ++ m.selection

/-- DataAggregator.calculateScoreConfidence: called with the aggregate as it
stands after the provider id was appended (and after any timestamp-driven
overwrite), so sourceCount = sources.length + 1 counts the new reading twice. -/
def calculateScoreConfidence (existing : AggregatedLiveScore) (newScore : LiveScore) : ℚ :=
  let sourceCount : ℚ := existing.sources.length + 1
  if existing.homeScore = newScore.homeScore ∧ existing.awayScore = newScore.awayScore then
    mathMin 1 (1/2 + sourceCount * (15/100))
  else
    mathMax (3/10) (1 - sourceCount * (1/10))

/-- DataAggregator.calculateMarketConfidence: called after the best-odds
promotion, so existing.odds is already the running maximum. -/
def calculateMarketConfidence (existing : AggregatedMarket) (newMarket : Market) : ℚ :=
  let sourceCount : ℚ := existing.sources.length + 1
  let oddsDiff := mathAbs (existing.odds - newMarket.odds) / existing.odds
  if oddsDiff < 1/20 then
    mathMin 1 (3/5 + sourceCount * (1/10))
  else
    mathMax (2/5) (1 - oddsDiff * 2)

/-- The body of aggregateLiveScores for one reading hitting an existing map
entry: append the provider id, overwrite the score fields when the new
timestamp is strictly newer, then recompute confidence. -/
def mergeLiveScore (pid : String) (existing : AggregatedLiveScore) (score : LiveScore) :
    AggregatedLiveScore :=
  let e₁ := { existing with sources := existing.sources ++ [pid] }
  let e₂ :=
    if score.timestamp > e₁.timestamp then
      { e₁ with
        homeScore := score.homeScore
        awayScore := score.awayScore
        period := score.period
        status := score.status
        timestamp := score.timestamp }
    else e₁
  { e₂ with confidence := calculateScoreConfidence e₂ score }

/-- The map entry seeded by the first reading of a key. -/
def seedScore (pid : String) (s : LiveScore) : AggregatedLiveScore :=
  { toLiveScore := s, sources := [pid], confidence := 1 }

/-- Math.max spread over a non-empty array. -/
def listMax : List ℚ → ℚ
  | [] => 0
  | x :: xs => xs.foldl mathMax x

/-- The body of aggregateMarkets for one reading hitting an existing map
entry: append the source, rebuild the odds history from the current primary
odds and the source count, recompute best/average odds, promote the reading
to primary when its odds beat the current primary, then recompute
confidence. -/
def mergeMarket (pid : String) (existing : AggregatedMarket) (m : Market) :
    AggregatedMarket :=
  let e₁ := { existing with sources := existing.sources ++ [pid] }
  let allOdds := (e₁.sources.map fun _ => e₁.odds) ++ [m.odds]
  let e₂ := { e₁ with
    bestOdds := listMax allOdds
    averageOdds := allOdds.sum / (allOdds.length : ℚ) }
  let e₃ :=
    if m.odds > e₂.odds then
      { e₂ with odds := m.odds, provider := m.provider, providerId := m.providerId }
    else e₂
  { e₃ with confidence := calculateMarketConfidence e₃ m }

/-- The map entry seeded by the first market reading of a key. -/
def seedMarket (pid : String) (m : Market) : AggregatedMarket :=
  { toMarket := m, sources := [pid], bestOdds := m.odds, averageOdds := m.odds,
    confidence := 1 }

/-! Both aggregation methods share the same shape: a double loop over
(provider, readings) pairs folding each reading into an insertion-ordered map
keyed by a derived string, seeding on a fresh key and merging on an existing
one.  The shape is factored out so its invariants are proved once. -/

section FoldAgg

variable {β α : Type} (key : β → String) (seed : String → β → α)
  (merge : String → α → β → α)

/-- One reading folded into the map: the body of the inner for-loop. -/
def stepAgg (m : List (String × α)) (pid : String) (b : β) : List (String × α) :=
  match lookupA (key b) m with
  | some existing => updateA (key b) (merge pid existing b) m
  | none => m ++ [(key b, seed pid b)]

/-- The double loop over all (provider id, readings) pairs. -/
def foldAgg (inp : List (String × List β)) : List (String × α) :=
  inp.foldl (fun m pr => pr.2.foldl (fun m b => stepAgg key seed merge m pr.1 b) m) []

/-- The readings stream in the order the double loop visits it. -/
def flattenInp : List (String × List β) → List (String × β)
  | [] => []
  | pr :: rest => (pr.2.map fun b => (pr.1, b)) ++ flattenInp rest

/-- The (provider id, reading) pairs that contribute to key k, in order. -/
def contribsOf (k : String) (inp : List (String × List β)) : List (String × β) :=
  (flattenInp inp).filter fun pr => key pr.2 == k

/-- stepAgg uncurried over a (provider id, reading) pair. -/
def stepAggP (m : List (String × α)) (pr : String × β) : List (String × α) :=
  stepAgg key seed merge m pr.1 pr.2

theorem foldAgg_inner (pid : String) (bs : List β) (m₀ : List (String × α)) :
    bs.foldl (fun m b => stepAgg key seed merge m pid b) m₀ =
      (bs.map fun b => (pid, b)).foldl (stepAggP key seed merge) m₀ := by
  induction bs generalizing m₀ with
  | nil => rfl
  | cons b rest ih =>
    simp only [List.foldl_cons, List.map_cons]
    exact ih _

theorem foldAgg_eq_flatten (inp : List (String × List β)) :
    foldAgg key seed merge inp = (flattenInp inp).foldl (stepAggP key seed merge) [] := by
  suffices h : ∀ (inp : List (String × List β)) (m₀ : List (String × α)),
      inp.foldl (fun m pr => pr.2.foldl (fun m b => stepAgg key seed merge m pr.1 b) m) m₀ =
        (flattenInp inp).foldl (stepAggP key seed merge) m₀ from h inp []
  intro inp
  induction inp with
  | nil => intro m₀; rfl
  | cons pr rest ih =>
    intro m₀
    simp only [List.foldl_cons, flattenInp, List.foldl_append]
    rw [foldAgg_inner, ih]

theorem nodup_append_singleton {γ : Type} {a : γ} {l : List γ}
    (h : l.Nodup) (ha : a ∉ l) : (l ++ [a]).Nodup := by
  induction l with
  | nil => simp
  | cons x xs ih =>
    simp only [List.nodup_cons] at h
    simp only [List.mem_cons] at ha
    push_neg at ha
    refine List.nodup_cons.mpr ⟨?_, ih h.2 ha.2⟩
    intro hx
    rcases List.mem_append.mp hx with hx | hx
    · exact h.1 hx
    · rw [List.mem_singleton] at hx
      exact ha.1 hx.symm

theorem lookupA_singleton_self {α : Type} (k : String) (v : α) :
    lookupA k [(k, v)] = some v := by
  simp [lookupA]

theorem lookupA_singleton_ne {α : Type} {k k₂ : String} (v : α) (h : k₂ ≠ k) :
    lookupA k [(k₂, v)] = none := by
  simp [lookupA, h]

theorem foldAgg_aux
    (Q : String → List (String × β) → α → Prop)
    (hseed : ∀ pid b, Q (key b) [(pid, b)] (seed pid b))
    (hmerge : ∀ pid a b cs, cs ≠ [] → Q (key b) cs a →
      Q (key b) (cs ++ [(pid, b)]) (merge pid a b)) :
    ∀ (l processed : List (String × β)) (m : List (String × α)),
    (m.map Prod.fst).Nodup →
    (∀ k a, lookupA k m = some a →
      (processed.filter fun pr => key pr.2 == k) ≠ [] ∧
        Q k (processed.filter fun pr => key pr.2 == k) a) →
    (∀ k, lookupA k m = none → (processed.filter fun pr => key pr.2 == k) = []) →
    (((l.foldl (stepAggP key seed merge) m).map Prod.fst).Nodup ∧
     (∀ k a, lookupA k (l.foldl (stepAggP key seed merge) m) = some a →
        ((processed ++ l).filter fun pr => key pr.2 == k) ≠ [] ∧
          Q k ((processed ++ l).filter fun pr => key pr.2 == k) a) ∧
     (∀ k, lookupA k (l.foldl (stepAggP key seed merge) m) = none →
        ((processed ++ l).filter fun pr => key pr.2 == k) = [])) := by
  intro l
  induction l with
  | nil =>
    intro processed m hnd hsome hnone
    simp only [List.foldl_nil, List.append_nil]
    exact ⟨hnd, hsome, hnone⟩
  | cons pr rest ih =>
    intro processed m hnd hsome hnone
    obtain ⟨pid, b⟩ := pr
    have hstep : List.foldl (stepAggP key seed merge) m ((pid, b) :: rest) =
        List.foldl (stepAggP key seed merge) (stepAggP key seed merge m (pid, b)) rest :=
      List.foldl_cons ..
    have happ : processed ++ (pid, b) :: rest = (processed ++ [(pid, b)]) ++ rest := by
      simp
    rw [hstep, happ]
    have hfilter_eq :
        ((processed ++ [(pid, b)]).filter fun pr => key pr.2 == key b) =
          (processed.filter fun pr => key pr.2 == key b) ++ [(pid, b)] := by
      rw [List.filter_append]
      simp
    have hfilter_ne : ∀ k, k ≠ key b →
        ((processed ++ [(pid, b)]).filter fun pr => key pr.2 == k) =
          (processed.filter fun pr => key pr.2 == k) := by
      intro k hk
      rw [List.filter_append]
      have hkb : (key b == k) = false := by
        simp only [beq_eq_false_iff_ne]
        exact fun hc => hk hc.symm
      simp [hkb]
    cases hm : lookupA (key b) m with
    | some a₀ =>
      have hstepAgg : stepAggP key seed merge m (pid, b) =
          updateA (key b) (merge pid a₀ b) m := by
        rw [stepAggP, stepAgg, hm]
      rw [hstepAgg]
      apply ih (processed ++ [(pid, b)])
      · rw [updateA_map_fst]
        exact hnd
      · intro k a hla
        by_cases hk : k = key b
        · subst hk
          rw [lookupA_updateA_self hm] at hla
          obtain ⟨hne, hQ⟩ := hsome (key b) a₀ hm
          rw [hfilter_eq]
          cases hla
          exact ⟨by simp, hmerge pid a₀ b _ hne hQ⟩
        · rw [lookupA_updateA_ne hk] at hla
          rw [hfilter_ne k hk]
          exact hsome k a hla
      · intro k hla
        by_cases hk : k = key b
        · subst hk
          rw [lookupA_updateA_self hm] at hla
          cases hla
        · rw [lookupA_updateA_ne hk] at hla
          rw [hfilter_ne k hk]
          exact hnone k hla
    | none =>
      have hstepAgg : stepAggP key seed merge m (pid, b) =
          m ++ [(key b, seed pid b)] := by
        rw [stepAggP, stepAgg, hm]
      rw [hstepAgg]
      apply ih (processed ++ [(pid, b)])
      · rw [List.map_append]
        exact nodup_append_singleton hnd (not_mem_of_lookupA_eq_none hm)
      · intro k a hla
        by_cases hk : k = key b
        · subst hk
          rw [lookupA_append_none hm, lookupA_singleton_self] at hla
          rw [hfilter_eq, hnone _ hm]
          cases hla
          exact ⟨by simp, hseed pid b⟩
        · rw [hfilter_ne k hk]
          cases hmk : lookupA k m with
          | some v =>
            rw [lookupA_append_some hmk] at hla
            cases hla
            exact hsome k a hmk
          | none =>
            rw [lookupA_append_none hmk,
              lookupA_singleton_ne _ (fun hc : key b = k => hk hc.symm)] at hla
            cases hla
      · intro k hla
        by_cases hk : k = key b
        · subst hk
          rw [lookupA_append_none hm, lookupA_singleton_self] at hla
          cases hla
        · rw [hfilter_ne k hk]
          cases hmk : lookupA k m with
          | some v =>
            rw [lookupA_append_some hmk] at hla
            cases hla
          | none =>
            exact hnone k hmk

/-- Master invariant of the shared double-loop shape: key list is duplicate
free, and each map entry satisfies any property Q preserved by seeding and
merging, relative to the ordered stream of readings contributing its key. -/
theorem foldAgg_invariant
    (Q : String → List (String × β) → α → Prop)
    (hseed : ∀ pid b, Q (key b) [(pid, b)] (seed pid b))
    (hmerge : ∀ pid a b cs, cs ≠ [] → Q (key b) cs a →
      Q (key b) (cs ++ [(pid, b)]) (merge pid a b))
    (inp : List (String × List β)) :
    ((foldAgg key seed merge inp).map Prod.fst).Nodup ∧
    (∀ k a, lookupA k (foldAgg key seed merge inp) = some a →
      contribsOf key k inp ≠ [] ∧ Q k (contribsOf key k inp) a) := by
  have h := foldAgg_aux key seed merge Q hseed hmerge (flattenInp inp) [] []
    (by simp) (by intro k a hla; cases hla) (by intro k _; rfl)
  rw [← foldAgg_eq_flatten] at h
  refine ⟨h.1, fun k a hla => ?_⟩
  have h2 := h.2.1 k a hla
  simpa [contribsOf] using h2

theorem mem_foldAgg_values (inp : List (String × List β)) (a : α)
    (ha : a ∈ (foldAgg key seed merge inp).map Prod.snd) :
    ∃ k, lookupA k (foldAgg key seed merge inp) = some a := by
  obtain ⟨p, hp, hpa⟩ := List.mem_map.mp ha
  have hnd := (foldAgg_invariant key seed merge (fun _ _ _ => True)
    (fun _ _ => trivial) (fun _ _ _ _ _ _ => trivial) inp).1
  refine ⟨p.1, ?_⟩
  have hmem : (p.1, a) ∈ foldAgg key seed merge inp := by
    obtain ⟨p₁, p₂⟩ := p
    cases hpa
    exact hp
  exact lookupA_of_mem_nodup hnd hmem

end FoldAgg

/-- DataAggregator.aggregateLiveScores. -/
def aggregateLiveScores (scores : List (String × List LiveScore)) :
    List AggregatedLiveScore :=
  (foldAgg createScoreKey seedScore mergeLiveScore scores).map Prod.snd

/-- DataAggregator.aggregateMarkets. -/
def aggregateMarkets (markets : List (String × List Market)) :
    List AggregatedMarket :=
  (foldAgg createMarketKey seedMarket mergeMarket markets).map Prod.snd

/-- C7: one merge step of live-score aggregation under the same normalized
key: the provider id is appended to sources; the aggregate's
score/period/status/timestamp are overwritten exactly when the new reading's
timestamp is strictly newer (last-write-wins by timestamp — the aggregator
never consults provider priority, which does not even reach the merge); and
confidence is recomputed as min(1, 0.5 + sourceCount * 0.15) when the new
score tuple equals the current (post-overwrite) aggregate's, else
max(0.3, 1 - sourceCount * 0.1), where sourceCount is the code's
sources.length + 1 computed after the append. -/
theorem live_score_merge_rule (pid : String) (e : AggregatedLiveScore) (s : LiveScore) :
    (mergeLiveScore pid e s).sources = e.sources ++ [pid] ∧
    (s.timestamp > e.timestamp →
      (mergeLiveScore pid e s).homeScore = s.homeScore ∧
      (mergeLiveScore pid e s).awayScore = s.awayScore ∧
      (mergeLiveScore pid e s).period = s.period ∧
      (mergeLiveScore pid e s).status = s.status ∧
      (mergeLiveScore pid e s).timestamp = s.timestamp) ∧
    (¬ s.timestamp > e.timestamp →
      (mergeLiveScore pid e s).homeScore = e.homeScore ∧
      (mergeLiveScore pid e s).awayScore = e.awayScore ∧
      (mergeLiveScore pid e s).period = e.period ∧
      (mergeLiveScore pid e s).status = e.status ∧
      (mergeLiveScore pid e s).timestamp = e.timestamp) ∧
    (mergeLiveScore pid e s).confidence =
      (if (mergeLiveScore pid e s).homeScore = s.homeScore ∧
          (mergeLiveScore pid e s).awayScore = s.awayScore then
        mathMin 1 (1/2 + (((e.sources.length + 1 : ℕ) : ℚ) + 1) * (15/100))
      else
        mathMax (3/10) (1 - (((e.sources.length + 1 : ℕ) : ℚ) + 1) * (1/10))) := by
  by_cases ht : s.timestamp > e.timestamp <;>
    simp [mergeLiveScore, calculateScoreConfidence, ht]

/-- C7 witness: merging a strictly newer reading with a different score into a
single-source aggregate appends the source and overwrites the score. -/
theorem live_score_merge_rule_witness :
    (mergeLiveScore "pB"
        (seedScore "pA" (LiveScore.mk "m" "m" "pA" "soccer" none "ars" "chel"
          1 0 "2H" "live" none 100))
        (LiveScore.mk "m" "m" "pB" "soccer" none "ars" "chel"
          2 0 "2H" "live" none 200)).sources = ["pA", "pB"] ∧
    (mergeLiveScore "pB"
        (seedScore "pA" (LiveScore.mk "m" "m" "pA" "soccer" none "ars" "chel"
          1 0 "2H" "live" none 100))
        (LiveScore.mk "m" "m" "pB" "soccer" none "ars" "chel"
          2 0 "2H" "live" none 200)).homeScore = 2 := by
  have h := live_score_merge_rule "pB"
    (seedScore "pA" (LiveScore.mk "m" "m" "pA" "soccer" none "ars" "chel"
      1 0 "2H" "live" none 100))
    (LiveScore.mk "m" "m" "pB" "soccer" none "ars" "chel"
      2 0 "2H" "live" none 200)
  exact ⟨h.1, (h.2.1 (by decide)).1⟩

/-- Market reading used in the C4 counterexample and witness. -/
def marketReadingC4 (provider : String) (providerId : String) (odds : ℚ) : Market :=
  { id := providerId
    providerId := providerId
    provider := provider
    sport := "basketball"
    league := none
    eventId := "e1"
    eventName := "E1"
    marketType := "moneyline"
    selection := "home"
    odds := odds
    status := "active"
    updatedAt := "t0" }

/-- C4 counterexample: two readings for one key with odds 2.50 and then 3.00
(a 20% difference) yield confidence 0.9, not at most 0.4: the promotion of the
higher odds to the primary field happens before the confidence computation,
which therefore sees a relative difference of 0 and takes the agreement
branch. -/
theorem market_20pct_diff_high_confidence :
    (aggregateMarkets [("pA", [marketReadingC4 "pA" "a1" (5/2)]),
                       ("pB", [marketReadingC4 "pB" "b1" 3])]).map
        (fun a => a.confidence) = [9/10] ∧
    ¬ ((9 : ℚ)/10 ≤ 2/5) := by
  constructor
  · norm_num [aggregateMarkets, foldAgg, stepAgg, lookupA, updateA, mergeMarket,
      seedMarket, createMarketKey, calculateMarketConfidence, marketReadingC4,
      listMax, mathMax, mathAbs, mathMin]
  · norm_num

/-- JavaScript promotion `if (m > a) then m else a` agrees with Math.max. -/
theorem promotion_eq_mathMax (a b : ℚ) : (if b > a then b else a) = mathMax a b := by
  rw [mathMax]
  by_cases h : b > a
  · rw [if_pos h, if_pos (le_of_lt h)]
  · rw [if_neg h]
    by_cases h₂ : a ≤ b
    · rw [if_pos h₂]
      exact le_antisymm h₂ (le_of_not_lt h)
    · rw [if_neg h₂]

theorem mergeMarket_odds (pid : String) (e : AggregatedMarket) (m : Market) :
    (mergeMarket pid e m).odds = mathMax e.odds m.odds := by
  rw [← promotion_eq_mathMax]
  rw [mergeMarket]
  by_cases h : m.odds > e.odds <;> simp [h, calculateMarketConfidence]

/-- C4 (amended): the recomputed market confidence follows the odds-agreement
rule applied to the post-promotion primary odds: with p = max(existing odds,
new odds) and relativeDiff = |p - new odds| / p, if relativeDiff < 5% then
confidence = min(1, 0.6 + sourceCount * 0.1), else
max(0.4, 1 - relativeDiff * 2), where sourceCount counts the merged sources
plus one; in particular whenever the new reading's odds are at least the
current primary odds (e.g. 2.50 then 3.00), relativeDiff is 0 and the
agreement branch fires, so two readings 2.50 and 2.52 yield 0.9 >= 0.8 in
either order, while 2.50 and 3.00 yield 0.9 or 2/3 depending on order —
never <= 0.4. -/
theorem market_confidence_post_promotion (pid : String) (e : AggregatedMarket) (m : Market) :
    ((mergeMarket pid e m).confidence =
      (if mathAbs (mathMax e.odds m.odds - m.odds) / mathMax e.odds m.odds < 1/20 then
        mathMin 1 (3/5 + (((e.sources.length + 1 : ℕ) : ℚ) + 1) * (1/10))
      else
        mathMax (2/5)
          (1 - mathAbs (mathMax e.odds m.odds - m.odds) / mathMax e.odds m.odds * 2))) ∧
    (e.odds ≤ m.odds →
      (mergeMarket pid e m).confidence =
        mathMin 1 (3/5 + (((e.sources.length + 1 : ℕ) : ℚ) + 1) * (1/10))) := by
  have hodds := mergeMarket_odds pid e m
  constructor
  · rw [← promotion_eq_mathMax]
    rw [mergeMarket]
    by_cases h : m.odds > e.odds <;> simp [h, calculateMarketConfidence]
  · intro hle
    by_cases h : m.odds > e.odds
    · rw [mergeMarket]
      norm_num [h, calculateMarketConfidence, mathAbs]
    · have heq : m.odds = e.odds := le_antisymm (le_of_not_lt h) hle
      rw [mergeMarket]
      norm_num [h, calculateMarketConfidence, heq, mathAbs]

/-- C4 witness: merging odds 3.00 into a single-source aggregate seeded with
odds 2.50 yields confidence 0.9. -/
theorem market_confidence_post_promotion_witness :
    (mergeMarket "pB" (seedMarket "pA" (marketReadingC4 "pA" "a1" (5/2)))
        (marketReadingC4 "pB" "b1" 3)).confidence = 9/10 := by
  have h := (market_confidence_post_promotion "pB"
    (seedMarket "pA" (marketReadingC4 "pA" "a1" (5/2)))
    (marketReadingC4 "pB" "b1" 3)).2 (by norm_num [seedMarket, marketReadingC4])
  rw [h]
  norm_num [seedMarket, mathMin]

theorem mathMax_self (a : ℚ) : mathMax a a = a := by
  rw [mathMax]
  split <;> rfl

theorem foldl_mathMax_const (c : ℚ) (l : List ℚ) (hl : ∀ y ∈ l, y = c) :
    l.foldl mathMax c = c := by
  induction l with
  | nil => rfl
  | cons y ys ih =>
    have hy : y = c := hl y (by simp)
    rw [List.foldl_cons, hy, mathMax_self]
    exact ih fun z hz => hl z (by simp [hz])

theorem listMax_append_singleton (l : List ℚ) (x : ℚ) (hl : l ≠ []) :
    listMax (l ++ [x]) = mathMax (listMax l) x := by
  cases l with
  | nil => exact absurd rfl hl
  | cons y ys =>
    show (ys ++ [x]).foldl mathMax y = mathMax (listMax (y :: ys)) x
    rw [List.foldl_append]
    rfl

theorem listMax_all_eq (l : List ℚ) (v : ℚ) (hne : l ≠ []) (h : ∀ o ∈ l, o = v) :
    listMax l = v := by
  cases l with
  | nil => exact absurd rfl hne
  | cons y ys =>
    have hy : y = v := h y (by simp)
    show ys.foldl mathMax y = v
    rw [hy]
    exact foldl_mathMax_const v ys fun z hz => h z (by simp [hz])

theorem listMax_map_const_append {γ : Type} (l : List γ) (c x : ℚ) (hl : l ≠ []) :
    listMax ((l.map fun _ => c) ++ [x]) = mathMax c x := by
  cases l with
  | nil => exact absurd rfl hl
  | cons y ys =>
    show ((ys.map fun _ => c) ++ [x]).foldl mathMax c = mathMax c x
    rw [List.foldl_append, foldl_mathMax_const c _ (by simp)]
    rfl

theorem sum_map_const {γ : Type} (l : List γ) (c : ℚ) :
    (l.map fun _ => c).sum = (l.length : ℚ) * c := by
  induction l with
  | nil => simp
  | cons y ys ih =>
    simp [ih]
    ring

theorem mergeMarket_sources (pid : String) (e : AggregatedMarket) (m : Market) :
    (mergeMarket pid e m).sources = e.sources ++ [pid] := by
  rw [mergeMarket]
  by_cases h : m.odds > e.odds <;> simp [h, calculateMarketConfidence]

theorem mergeMarket_key (pid : String) (e : AggregatedMarket) (m : Market) :
    createMarketKey (mergeMarket pid e m).toMarket = createMarketKey e.toMarket := by
  rw [mergeMarket, createMarketKey, createMarketKey]
  by_cases h : m.odds > e.odds <;> simp [h, calculateMarketConfidence]

theorem mergeMarket_bestOdds (pid : String) (e : AggregatedMarket) (m : Market) :
    (mergeMarket pid e m).bestOdds = mathMax e.odds m.odds := by
  have hrw : (mergeMarket pid e m).bestOdds =
      listMax (((e.sources ++ [pid]).map fun _ => e.odds) ++ [m.odds]) := by
    rw [mergeMarket]
    by_cases h : m.odds > e.odds <;> simp [h, calculateMarketConfidence]
  rw [hrw]
  exact listMax_map_const_append (e.sources ++ [pid]) e.odds m.odds (by simp)

theorem mergeMarket_averageOdds (pid : String) (e : AggregatedMarket) (m : Market) :
    (mergeMarket pid e m).averageOdds =
      (((e.sources ++ [pid]).map fun _ => e.odds) ++ [m.odds]).sum /
        ((((e.sources ++ [pid]).map fun _ => e.odds) ++ [m.odds]).length : ℚ) := by
  rw [mergeMarket]
  by_cases h : m.odds > e.odds <;> simp [h, calculateMarketConfidence]

/-- The per-entry invariant behind the amended C5: the primary odds and
bestOdds track the maximum of the odds contributed to the entry's key, the
key fields are never rewritten by a merge, and averageOdds agrees with the
contributed odds only when they are all equal. -/
def MarketMaxQ (k : String) (cs : List (String × Market)) (a : AggregatedMarket) : Prop :=
  createMarketKey a.toMarket = k ∧
  a.odds = listMax (cs.map fun pr => pr.2.odds) ∧
  a.bestOdds = listMax (cs.map fun pr => pr.2.odds) ∧
  (∀ v, (∀ pr ∈ cs, (pr.2 : Market).odds = v) → a.averageOdds = v)

theorem marketMaxQ_seed (pid : String) (b : Market) :
    MarketMaxQ (createMarketKey b) [(pid, b)] (seedMarket pid b) := by
  refine ⟨rfl, rfl, rfl, ?_⟩
  intro v hv
  exact hv (pid, b) (by simp)

theorem marketMaxQ_merge (pid : String) (a : AggregatedMarket) (b : Market)
    (cs : List (String × Market)) (hne : cs ≠ [])
    (hQ : MarketMaxQ (createMarketKey b) cs a) :
    MarketMaxQ (createMarketKey b) (cs ++ [(pid, b)]) (mergeMarket pid a b) := by
  obtain ⟨hkey, hodds, hbest, havg⟩ := hQ
  have hmapne : (cs.map fun pr => (pr.2 : Market).odds) ≠ [] := by
    simpa using hne
  have hmap : ((cs ++ [(pid, b)]).map fun pr => (pr.2 : Market).odds) =
      (cs.map fun pr => (pr.2 : Market).odds) ++ [b.odds] := by
    simp
  refine ⟨?_, ?_, ?_, ?_⟩
  · rw [mergeMarket_key, hkey]
  · rw [mergeMarket_odds, hodds, hmap,
      listMax_append_singleton _ _ hmapne]
  · rw [mergeMarket_bestOdds, hodds, hmap,
      listMax_append_singleton _ _ hmapne]
  · intro v hv
    have hb : b.odds = v := hv (pid, b) (by simp)
    have hvcs : ∀ pr ∈ cs, (pr.2 : Market).odds = v := fun pr hpr =>
      hv pr (by simp [hpr])
    have haodds : a.odds = v := by
      rw [hodds]
      refine listMax_all_eq _ v hmapne ?_
      intro o ho
      obtain ⟨pr, hpr, rfl⟩ := List.mem_map.mp ho
      exact hvcs pr hpr
    rw [mergeMarket_averageOdds, haodds, hb]
    rw [List.sum_append, List.length_append, sum_map_const]
    have hlen : (((a.sources ++ [pid]).map fun _ => v).length : ℚ) =
        ((a.sources ++ [pid]).length : ℚ) := by
      simp
    simp only [List.sum_cons, List.sum_nil, List.length_singleton]
    have hden : (((a.sources ++ [pid]).length + 1 : ℕ) : ℚ) ≠ 0 := by
      positivity
    rw [List.length_map]
    rw [div_eq_iff hden]
    push_cast
    ring

/-- Market reading used in the C5 counterexample and witness. -/
def marketReadingC5 (provider : String) (providerId : String) (odds : ℚ) : Market :=
  { id := providerId
    providerId := providerId
    provider := provider
    sport := "basketball"
    league := none
    eventId := "e1"
    eventName := "E1"
    marketType := "moneyline"
    selection := "home"
    odds := odds
    status := "active"
    updatedAt := "t0" }

/-- C5 counterexample: two readings for one key with odds 2.1 and 2.5 produce
averageOdds (2.1 + 2.1 + 2.5)/3 = 67/30, not the arithmetic mean
(2.1 + 2.5)/2 = 2.3: the merge reconstructs the odds history as the current
primary odds repeated once per source plus the new odds. -/
theorem market_averageOdds_not_mean :
    (aggregateMarkets [("pA", [marketReadingC5 "pA" "a1" (21/10)]),
                       ("pB", [marketReadingC5 "pB" "b1" (5/2)])]).map
        (fun a => a.averageOdds) = [67/30] ∧
    (67 : ℚ)/30 ≠ (21/10 + 5/2)/2 := by
  constructor
  · norm_num [aggregateMarkets, foldAgg, stepAgg, lookupA, updateA, mergeMarket,
      seedMarket, createMarketKey, calculateMarketConfidence, marketReadingC5,
      listMax, mathMax, mathAbs, mathMin]
  · norm_num

/-- C5 (amended): for every input and every aggregate produced, bestOdds and
the primary odds field both equal the maximum of all odds contributed to that
aggregate's key, for any number of readings and any order of arrival;
averageOdds equals the common value (hence the arithmetic mean) when all
contributed odds agree, but is in general not the mean of the contributed
odds, being rebuilt each merge from the current primary odds and the source
count. -/
theorem market_bestOdds_max (inp : List (String × List Market)) (a : AggregatedMarket)
    (ha : a ∈ aggregateMarkets inp) :
    contribsOf createMarketKey (createMarketKey a.toMarket) inp ≠ [] ∧
    a.bestOdds =
      listMax ((contribsOf createMarketKey (createMarketKey a.toMarket) inp).map
        fun pr => pr.2.odds) ∧
    a.odds =
      listMax ((contribsOf createMarketKey (createMarketKey a.toMarket) inp).map
        fun pr => pr.2.odds) ∧
    (∀ v, (∀ pr ∈ contribsOf createMarketKey (createMarketKey a.toMarket) inp,
        (pr.2 : Market).odds = v) → a.averageOdds = v) := by
  obtain ⟨k, hl⟩ := mem_foldAgg_values createMarketKey seedMarket mergeMarket inp a ha
  have hinv := (foldAgg_invariant createMarketKey seedMarket mergeMarket MarketMaxQ
    marketMaxQ_seed marketMaxQ_merge inp).2 k a hl
  obtain ⟨hcne, hkey, hodds, hbest, havg⟩ := hinv
  subst hkey
  exact ⟨hcne, hbest, hodds, havg⟩

/-- The single aggregate produced by the C5 witness input. -/
def c5AggW : AggregatedMarket :=
  { id := "a1"
    providerId := "b1"
    provider := "pB"
    sport := "basketball"
    league := none
    eventId := "e1"
    eventName := "E1"
    marketType := "moneyline"
    selection := "home"
    odds := 5/2
    status := "active"
    updatedAt := "t0"
    sources := ["pA", "pB"]
    bestOdds := 5/2
    averageOdds := 67/30
    confidence := 9/10 }

/-- C5 witness: on the concrete two-reading input with odds 2.1 and 2.5, the
aggregate's bestOdds equals the maximum of the contributed odds. -/
theorem market_bestOdds_max_witness :
    c5AggW.bestOdds =
      listMax ((contribsOf createMarketKey (createMarketKey c5AggW.toMarket)
        [("pA", [marketReadingC5 "pA" "a1" (21/10)]),
         ("pB", [marketReadingC5 "pB" "b1" (5/2)])]).map fun pr => pr.2.odds) :=
  (market_bestOdds_max
    [("pA", [marketReadingC5 "pA" "a1" (21/10)]),
     ("pB", [marketReadingC5 "pB" "b1" (5/2)])] c5AggW
    (by norm_num [aggregateMarkets, foldAgg, stepAgg, lookupA, updateA, mergeMarket,
      seedMarket, createMarketKey, calculateMarketConfidence, marketReadingC5, c5AggW,
      listMax, mathMax, mathAbs, mathMin])).2.1

/-! ### Confidence bounds (C10) -/

theorem calculateScoreConfidence_bounds (e : AggregatedLiveScore) (s : LiveScore) :
    3/10 ≤ calculateScoreConfidence e s ∧ calculateScoreConfidence e s ≤ 1 := by
  simp only [calculateScoreConfidence]
  split
  · constructor
    · apply le_mathMin
      · norm_num
      · have h0 : (0:ℚ) ≤ ((e.sources.length : ℚ) + 1) * (15/100) := by positivity
        linarith
    · exact mathMin_le_left _ _
  · constructor
    · exact le_mathMax_left _ _
    · apply mathMax_le
      · norm_num
      · have h0 : (0:ℚ) ≤ ((e.sources.length : ℚ) + 1) * (1/10) := by positivity
        linarith

theorem calculateMarketConfidence_bounds (e : AggregatedMarket) (m : Market)
    (he : 0 < e.odds) :
    2/5 ≤ calculateMarketConfidence e m ∧ calculateMarketConfidence e m ≤ 1 := by
  simp only [calculateMarketConfidence]
  split
  · constructor
    · apply le_mathMin
      · norm_num
      · have h0 : (0:ℚ) ≤ ((e.sources.length : ℚ) + 1) * (1/10) := by positivity
        linarith
    · exact mathMin_le_left _ _
  · constructor
    · exact le_mathMax_left _ _
    · apply mathMax_le
      · norm_num
      · have hd : 0 ≤ mathAbs (e.odds - m.odds) / e.odds :=
          div_nonneg (mathAbs_nonneg _) (le_of_lt he)
        linarith

theorem mergeLiveScore_sources (pid : String) (e : AggregatedLiveScore) (s : LiveScore) :
    (mergeLiveScore pid e s).sources = e.sources ++ [pid] := by
  rw [mergeLiveScore]
  by_cases ht : s.timestamp > e.timestamp <;> simp [ht, calculateScoreConfidence]

theorem mergeLiveScore_confidence (pid : String) (e : AggregatedLiveScore) (s : LiveScore) :
    (mergeLiveScore pid e s).confidence =
      calculateScoreConfidence (mergeLiveScore pid e s) s := by
  rw [mergeLiveScore]
  by_cases ht : s.timestamp > e.timestamp <;> simp [ht, calculateScoreConfidence]

theorem mergeMarket_confidence (pid : String) (a : AggregatedMarket) (b : Market) :
    (mergeMarket pid a b).confidence =
      calculateMarketConfidence (mergeMarket pid a b) b := by
  rw [mergeMarket]
  by_cases h : b.odds > a.odds <;> simp [h, calculateMarketConfidence]

/-- C10: every aggregated live score has confidence in [0.3, 1] and — when
every reading carries positive (decimal) odds, as odds always are — every
aggregated market has confidence in [0.4, 1]: strictly tighter than the
spec's stated range [0, 1], and confidence never reaches 0. -/
theorem confidence_bounds
    (scores : List (String × List LiveScore)) (markets : List (String × List Market))
    (hpos : ∀ pr ∈ flattenInp markets, 0 < (pr.2 : Market).odds) :
    (∀ a ∈ aggregateLiveScores scores, 3/10 ≤ a.confidence ∧ a.confidence ≤ 1) ∧
    (∀ a ∈ aggregateMarkets markets, 2/5 ≤ a.confidence ∧ a.confidence ≤ 1) := by
  constructor
  · intro a ha
    obtain ⟨k, hl⟩ := mem_foldAgg_values createScoreKey seedScore mergeLiveScore scores a ha
    have hinv := (foldAgg_invariant createScoreKey seedScore mergeLiveScore
      (fun _ _ a => 3/10 ≤ a.confidence ∧ a.confidence ≤ 1)
      (fun pid b => by norm_num [seedScore])
      (fun pid a b cs hne hQ => by
        show 3/10 ≤ (mergeLiveScore pid a b).confidence ∧
          (mergeLiveScore pid a b).confidence ≤ 1
        rw [mergeLiveScore_confidence]
        exact calculateScoreConfidence_bounds _ _)
      scores).2 k a hl
    exact hinv.2
  · intro a ha
    obtain ⟨k, hl⟩ := mem_foldAgg_values createMarketKey seedMarket mergeMarket markets a ha
    have hinv := (foldAgg_invariant createMarketKey seedMarket mergeMarket
      (fun _ cs a => (∀ pr ∈ cs, 0 < (pr.2 : Market).odds) →
        (2/5 ≤ a.confidence ∧ a.confidence ≤ 1 ∧ 0 < a.odds))
      (fun pid b hp => by
        have hb : 0 < b.odds := hp (pid, b) (by simp)
        exact ⟨by norm_num [seedMarket], by norm_num [seedMarket],
          by simpa [seedMarket] using hb⟩)
      (fun pid a b cs hne hQ => by
        intro hp
        have hpcs : ∀ pr ∈ cs, 0 < (pr.2 : Market).odds := fun pr hpr =>
          hp pr (List.mem_append_left _ hpr)
        have hb : 0 < b.odds := hp (pid, b) (List.mem_append_right _ (by simp))
        obtain ⟨h1, h2, hao⟩ := hQ hpcs
        have hodds : 0 < (mergeMarket pid a b).odds := by
          rw [mergeMarket_odds]
          exact lt_of_lt_of_le hao (le_mathMax_left _ _)
        have hbd := calculateMarketConfidence_bounds (mergeMarket pid a b) b hodds
        rw [← mergeMarket_confidence] at hbd
        exact ⟨hbd.1, hbd.2, hodds⟩)
      markets).2 k a hl
    have hp : ∀ pr ∈ contribsOf createMarketKey k markets, 0 < (pr.2 : Market).odds :=
      fun pr hpr => hpos pr (List.mem_filter.mp hpr).1
    obtain ⟨h1, h2, -⟩ := hinv.2 hp
    exact ⟨h1, h2⟩

/-- Market reading used by the C10 witness. -/
def marketReadingC10 : Market :=
  { id := "a1"
    providerId := "a1"
    provider := "pA"
    sport := "basketball"
    league := none
    eventId := "e1"
    eventName := "E1"
    marketType := "moneyline"
    selection := "home"
    odds := 5/2
    status := "active"
    updatedAt := "t0" }

/-- C10 witness: the aggregate of a single positive-odds reading has its
confidence inside [0.4, 1]. -/
theorem confidence_bounds_witness :
    2/5 ≤ (seedMarket "pA" marketReadingC10).confidence ∧
      (seedMarket "pA" marketReadingC10).confidence ≤ 1 :=
  (confidence_bounds [] [("pA", [marketReadingC10])]
    (by norm_num [flattenInp, marketReadingC10])).2
    (seedMarket "pA" marketReadingC10)
    (by simp [aggregateMarkets, foldAgg, stepAgg, lookupA, seedMarket, marketReadingC10,
      createMarketKey])

/-! ### Down-provider exclusion in the polling execute path (C8) -/

/-- A provider as seen by a polling task: its id and health snapshot
(the execute closure consults p.getHealth().status only). -/
structure BoundProvider where
  id : String
  health : ProviderHealth

/-- The fan-out stage of registerLiveScorePolling.execute: filter out
providers whose health status is down, fetch from the rest (a provider whose
fetch throws contributes an empty reading set via the inner catch; with the
inner catch in place every allSettled entry is fulfilled, so the fulfilled
filter passes everything through). -/
def executeFanOut (providers : List BoundProvider)
    (fetch : BoundProvider → Except String (List LiveScore)) :
    List (String × List LiveScore) :=
  (providers.filter fun p => p.health.status != HealthStatus.down).map
    fun p => (p.id, match fetch p with | .ok data => data | .error _ => [])

theorem flattenInp_fst_mem {β : Type} (inp : List (String × List β)) (pr : String × β)
    (h : pr ∈ flattenInp inp) : pr.1 ∈ inp.map Prod.fst := by
  induction inp with
  | nil => cases h
  | cons q rest ih =>
    rw [flattenInp] at h
    rcases List.mem_append.mp h with h | h
    · obtain ⟨b, hb, rfl⟩ := List.mem_map.mp h
      simp
    · simp [ih h]

/-- C8: providers whose health status is down at fire time are excluded from
the fetch fan-out, so every source id of every aggregated reading produced by
the execution belongs to a bound provider that was not down. -/
theorem down_providers_excluded (providers : List BoundProvider)
    (fetch : BoundProvider → Except String (List LiveScore))
    (a : AggregatedLiveScore)
    (ha : a ∈ aggregateLiveScores (executeFanOut providers fetch))
    (s : String) (hs : s ∈ a.sources) :
    ∃ p, p ∈ providers ∧ p.id = s ∧ p.health.status ≠ .down := by
  obtain ⟨k, hl⟩ := mem_foldAgg_values createScoreKey seedScore mergeLiveScore _ a ha
  have hinv := (foldAgg_invariant createScoreKey seedScore mergeLiveScore
    (fun _ cs a => ∀ s ∈ a.sources, ∃ pr ∈ cs, pr.1 = s)
    (fun pid b s hsrc => by
      refine ⟨(pid, b), by simp, ?_⟩
      have : s = pid := by simpa [seedScore] using hsrc
      exact this.symm)
    (fun pid a b cs hne hQ s hsrc => by
      rw [mergeLiveScore_sources] at hsrc
      rcases List.mem_append.mp hsrc with h | h
      · obtain ⟨pr, hpr, hpr1⟩ := hQ s h
        exact ⟨pr, List.mem_append_left _ hpr, hpr1⟩
      · refine ⟨(pid, b), List.mem_append_right _ (by simp), ?_⟩
        have : s = pid := by simpa using h
        exact this.symm)
    (executeFanOut providers fetch)).2 k a hl
  obtain ⟨pr, hpr, hpr1⟩ := hinv.2 s hs
  have hfst := flattenInp_fst_mem _ pr (List.mem_filter.mp hpr).1
  rw [executeFanOut, List.map_map] at hfst
  obtain ⟨p, hp, hid⟩ := List.mem_map.mp hfst
  have hmem := List.mem_filter.mp hp
  refine ⟨p, hmem.1, ?_, ?_⟩
  · rw [← hpr1, ← hid]
    rfl
  · simpa using hmem.2

/-- Live score used by the C8 witness. -/
def c8Score : LiveScore :=
  { matchId := "m1"
    providerMatchId := "1"
    provider := "good"
    sport := "soccer"
    league := none
    homeTeam := "ars"
    awayTeam := "chel"
    homeScore := 1
    awayScore := 0
    period := "1H"
    status := "live"
    startTime := none
    timestamp := 100 }

/-- Healthy provider used by the C8 witness. -/
def c8Good : BoundProvider := { id := "good", health := initialHealth }

/-- Forced-down provider used by the C8 witness. -/
def c8Bad : BoundProvider :=
  { id := "bad", health := { initialHealth with status := .down } }

/-- C8 witness: with two bound providers of which one is down, the aggregated
output's source belongs to the healthy provider, which is not down. -/
theorem down_providers_excluded_witness :
    ∃ p, p ∈ [c8Good, c8Bad] ∧ p.id = "good" ∧ p.health.status ≠ .down :=
  down_providers_excluded [c8Good, c8Bad]
    (fun p => if p.id = "good" then .ok [c8Score] else .error "provider failed")
    (seedScore "good" c8Score)
    (by simp [aggregateLiveScores, foldAgg, stepAgg, lookupA, executeFanOut, c8Good,
      c8Bad, c8Score, initialHealth, createScoreKey, normalizeName])
    "good" (by simp [seedScore])

/-! ### Polling scheduler (src/polling/polling-manager.ts)

The PollingManager owns a Map of PollingTask objects.  Each task's
scheduler-visible fields are modelled in TaskState together with a ghost
counter inFlight of executions that have entered the execute body and not
yet run its finally block; the execute closure captures the registration-time
interval constant, recorded in capturedInterval, and both the re-check
`if (task.running) return` and the finally block act on the task object.
The tick loop, execution completions, registration, deregistration and
dynamic interval updates are interleaved as an arbitrary sequence of
SchedStep events. -/

structure TaskState where
  interval : Nat
  capturedInterval : Nat
  lastRun : Option Nat
  nextRun : Nat
  running : Bool
  inFlight : Nat
deriving DecidableEq, Repr

/-- The task object built by registerLiveScorePolling / registerMarketPolling:
nextRun = now + interval, not running, and the execute closure capturing the
interval just computed. -/
def newTask (interval now : Nat) : TaskState :=
  { interval := interval
    capturedInterval := interval
    lastRun := none
    nextRun := now + interval
    running := false
    inFlight := 0 }

/-- The tick-loop dispatch of one task at time now fused with the entry of its
execute closure: the loop fires a task only when nextRun <= now and the
running flag is clear; execute re-checks the flag (the tick authority is
single threaded, so check-then-set is not interleaved), sets it, stamps
lastRun, and the execution enters flight.  In every other situation the task
is untouched. -/
def fireTask (now : Nat) (t : TaskState) : TaskState :=
  if t.nextRun ≤ now ∧ t.running = false then
    { t with running := true, lastRun := some now, inFlight := t.inFlight + 1 }
  else t

/-- The finally block of an in-flight execution completing at time now: clear
the running flag and set nextRun = now + the captured registration-time
interval (the closure reads the captured constant, not task.interval). -/
def finishTask (now : Nat) (t : TaskState) : TaskState :=
  if t.inFlight = 0 then t
  else
    { t with
      running := false
      inFlight := t.inFlight - 1
      nextRun := now + t.capturedInterval }

/-- updatePollingInterval on a present task: overwrite task.interval and
reschedule nextRun relative to the update time. -/
def updateTaskInterval (newInterval now : Nat) (t : TaskState) : TaskState :=
  { t with interval := newInterval, nextRun := now + newInterval }

inductive SchedStep
  | register (id : String) (interval : Nat) (now : Nat)
  | unregister (id : String)
  | fire (id : String) (now : Nat)
  | finish (id : String) (now : Nat)
  | updateInterval (id : String) (newInterval : Nat) (now : Nat)
deriving DecidableEq, Repr

/-- JavaScript Map.set: overwrite in place on an existing key, append on a
fresh one. -/
def setA {α : Type} (k : String) (v : α) (m : List (String × α)) : List (String × α) :=
  match lookupA k m with
  | some _ => updateA k v m
  | none => m ++ [(k, v)]

/-- Mutate the object stored under key k, leaving every other entry alone. -/
def mapAtKey {α : Type} (k : String) (f : α → α) :
    List (String × α) → List (String × α)
  | [] => []
  | (k₂, v) :: rest =>
      if k₂ = k then (k₂, f v) :: mapAtKey k f rest
      else (k₂, v) :: mapAtKey k f rest

/-- JavaScript Map.delete. -/
def removeA {α : Type} (k : String) (m : List (String × α)) : List (String × α) :=
  m.filter fun pr => pr.1 != k

def applyStep (s : List (String × TaskState)) : SchedStep → List (String × TaskState)
  | .register id interval now => setA id (newTask interval now) s
  | .unregister id => removeA id s
  | .fire id now => mapAtKey id (fireTask now) s
  | .finish id now => mapAtKey id (finishTask now) s
  | .updateInterval id newInterval now => mapAtKey id (updateTaskInterval newInterval now) s

/-- The scheduler state after an event sequence, starting from the empty task
map of the constructor. -/
def runSched (steps : List SchedStep) : List (String × TaskState) :=
  steps.foldl applyStep []

/-- Mutual-exclusion invariant of one task object: the running flag counts
the in-flight executions, so there is never more than one. -/
def TaskInv (t : TaskState) : Prop :=
  (t.running = true → t.inFlight = 1) ∧ (t.running = false → t.inFlight = 0)

theorem taskInv_new (interval now : Nat) : TaskInv (newTask interval now) := by
  constructor <;> simp [newTask]

theorem taskInv_fire (now : Nat) (t : TaskState) (h : TaskInv t) :
    TaskInv (fireTask now t) := by
  rw [fireTask]
  by_cases hg : t.nextRun ≤ now ∧ t.running = false
  · rw [if_pos hg]
    constructor
    · intro _
      simp [h.2 hg.2]
    · intro hc
      simp at hc
  · rw [if_neg hg]
    exact h

theorem taskInv_finish (now : Nat) (t : TaskState) (h : TaskInv t) :
    TaskInv (finishTask now t) := by
  rw [finishTask]
  by_cases h0 : t.inFlight = 0
  · rw [if_pos h0]
    exact h
  · rw [if_neg h0]
    constructor
    · intro hc
      simp at hc
    · intro _
      cases hr : t.running with
      | false => exact absurd (h.2 hr) h0
      | true => simp [h.1 hr]

theorem taskInv_update (newInterval now : Nat) (t : TaskState) (h : TaskInv t) :
    TaskInv (updateTaskInterval newInterval now t) := h

theorem mem_updateA {α : Type} {k : String} {v : α} {pr : String × α}
    {m : List (String × α)} (h : pr ∈ updateA k v m) : pr = (k, v) ∨ pr ∈ m := by
  induction m with
  | nil => cases h
  | cons q rest ih =>
    obtain ⟨k₂, v₂⟩ := q
    rw [updateA] at h
    by_cases hk : k₂ = k
    · rw [if_pos hk] at h
      rcases List.mem_cons.mp h with h | h
      · subst hk
        exact Or.inl h
      · exact Or.inr (List.mem_cons.mpr (Or.inr h))
    · rw [if_neg hk] at h
      rcases List.mem_cons.mp h with h | h
      · exact Or.inr (List.mem_cons.mpr (Or.inl h))
      · rcases ih h with h | h
        · exact Or.inl h
        · exact Or.inr (List.mem_cons.mpr (Or.inr h))

theorem mem_mapAtKey {α : Type} {k : String} {f : α → α} {pr : String × α}
    {m : List (String × α)} (h : pr ∈ mapAtKey k f m) :
    ∃ q, q ∈ m ∧ (pr = q ∨ pr = (q.1, f q.2)) := by
  induction m with
  | nil => cases h
  | cons q₀ rest ih =>
    obtain ⟨k₂, v₂⟩ := q₀
    rw [mapAtKey] at h
    by_cases hk : k₂ = k
    · rw [if_pos hk] at h
      rcases List.mem_cons.mp h with h | h
      · exact ⟨(k₂, v₂), by simp, Or.inr (by rw [h])⟩
      · obtain ⟨q, hq, hor⟩ := ih h
        exact ⟨q, by simp [hq], hor⟩
    · rw [if_neg hk] at h
      rcases List.mem_cons.mp h with h | h
      · exact ⟨(k₂, v₂), by simp, Or.inl h⟩
      · obtain ⟨q, hq, hor⟩ := ih h
        exact ⟨q, by simp [hq], hor⟩

theorem mem_of_lookupA_some {α : Type} {k : String} {v : α} {m : List (String × α)}
    (h : lookupA k m = some v) : (k, v) ∈ m := by
  induction m with
  | nil => cases h
  | cons q rest ih =>
    obtain ⟨k₂, v₂⟩ := q
    rw [lookupA] at h
    by_cases hk : k₂ = k
    · rw [if_pos hk] at h
      cases h
      exact List.mem_cons.mpr (Or.inl (by rw [hk]))
    · rw [if_neg hk] at h
      exact List.mem_cons.mpr (Or.inr (ih h))

theorem lookupA_mapAtKey_ne {α : Type} {k k₂ : String} (f : α → α)
    (m : List (String × α)) (hne : k₂ ≠ k) :
    lookupA k₂ (mapAtKey k f m) = lookupA k₂ m := by
  induction m with
  | nil => rfl
  | cons q rest ih =>
    obtain ⟨k₃, v₃⟩ := q
    rw [mapAtKey]
    by_cases hk : k₃ = k
    · rw [if_pos hk, lookupA, lookupA]
      have hk₃ : ¬ k₃ = k₂ := fun hc => hne (by rw [← hc, hk])
      rw [if_neg hk₃, if_neg hk₃]
      exact ih
    · rw [if_neg hk, lookupA, lookupA]
      by_cases hk₃ : k₃ = k₂
      · rw [if_pos hk₃, if_pos hk₃]
      · rw [if_neg hk₃, if_neg hk₃]
        exact ih

/-- The invariant holds for every task object in the map. -/
def SchedInv (s : List (String × TaskState)) : Prop := ∀ pr ∈ s, TaskInv pr.2

theorem schedInv_step (s : List (String × TaskState)) (st : SchedStep)
    (h : SchedInv s) : SchedInv (applyStep s st) := by
  cases st with
  | register id interval now =>
    intro pr hpr
    rw [applyStep, setA] at hpr
    cases hm : lookupA id s with
    | some t₀ =>
      rw [hm] at hpr
      rcases mem_updateA hpr with hpr | hpr
      · rw [hpr]
        exact taskInv_new interval now
      · exact h pr hpr
    | none =>
      rw [hm] at hpr
      rcases List.mem_append.mp hpr with hpr | hpr
      · exact h pr hpr
      · rw [List.mem_singleton.mp hpr]
        exact taskInv_new interval now
  | unregister id =>
    intro pr hpr
    exact h pr (List.mem_filter.mp hpr).1
  | fire id now =>
    intro pr hpr
    obtain ⟨q, hq, hor⟩ := mem_mapAtKey hpr
    rcases hor with hor | hor
    · rw [hor]
      exact h q hq
    · rw [hor]
      exact taskInv_fire now q.2 (h q hq)
  | finish id now =>
    intro pr hpr
    obtain ⟨q, hq, hor⟩ := mem_mapAtKey hpr
    rcases hor with hor | hor
    · rw [hor]
      exact h q hq
    · rw [hor]
      exact taskInv_finish now q.2 (h q hq)
  | updateInterval id newInterval now =>
    intro pr hpr
    obtain ⟨q, hq, hor⟩ := mem_mapAtKey hpr
    rcases hor with hor | hor
    · rw [hor]
      exact h q hq
    · rw [hor]
      exact taskInv_update newInterval now q.2 (h q hq)

theorem schedInv_run (steps : List SchedStep) : SchedInv (runSched steps) := by
  suffices hgen : ∀ (s : List (String × TaskState)), SchedInv s →
      SchedInv (steps.foldl applyStep s) from hgen [] (by intro pr hpr; cases hpr)
  induction steps with
  | nil => exact fun s hs => hs
  | cons st rest ih => exact fun s hs => ih _ (schedInv_step s st hs)

/-- C1: across every sequence of scheduler events, every registered task has
at most one execution in flight — a task fires only when due and not running,
the flag is set on entry and cleared only by the finishing execution's
finally block, so a second execution of the same task cannot start while one
is in flight; and a fire event for one task id leaves the state of every
other task untouched, so tasks with distinct ids run concurrently without
restriction. -/
theorem no_concurrent_executions (steps : List SchedStep) :
    (∀ id t, lookupA id (runSched steps) = some t → t.inFlight ≤ 1) ∧
    (∀ (s : List (String × TaskState)) (id₂ id₁ : String) (now : Nat), id₂ ≠ id₁ →
      lookupA id₂ (applyStep s (.fire id₁ now)) = lookupA id₂ s) := by
  constructor
  · intro id t hl
    have hinv := schedInv_run steps (id, t) (mem_of_lookupA_some hl)
    cases hr : t.running with
    | true => rw [hinv.1 hr]
    | false => rw [hinv.2 hr]; exact Nat.zero_le 1
  · intro s id₂ id₁ now hne
    exact lookupA_mapAtKey_ne (fireTask now) s hne

/-- C1 witness: a task registered with interval 1000 fired at t = 1000, with
a second dispatch attempt at t = 1500 while the first execution is still in
flight, has exactly one execution in flight. -/
theorem no_concurrent_executions_witness :
    (TaskState.mk 1000 1000 (some 1000) 1000 true 1).inFlight ≤ 1 :=
  (no_concurrent_executions
    [.register "a" 1000 0, .fire "a" 1000, .fire "a" 1500]).1 "a"
    (TaskState.mk 1000 1000 (some 1000) 1000 true 1) (by decide)

/-- C6: the finally block reschedules with the closure-captured
registration-time interval, not the updated task.interval: register at
interval 1000, fire at t = 1000, update the interval to 5000 at t = 1200
(which does reschedule nextRun to 6200), then the in-flight execution
finishes at t = 1500 — nextRun becomes 1500 + 1000 = 2500, not 1500 + 5000,
even though the task's interval field reads 5000. -/
theorem update_interval_ignored_on_reschedule :
    lookupA "t" (runSched [.register "t" 1000 0, .fire "t" 1000,
        .updateInterval "t" 5000 1200, .finish "t" 1500]) =
      some (TaskState.mk 5000 1000 (some 1000) 2500 false 0) ∧
    (2500 : Nat) ≠ 1500 + 5000 := by
  constructor <;> decide

/-- One complete run of the execute closure at time now, entry to finally,
with the outcomes of the fetch+aggregate pipeline and of the delivery
callback supplied as Except values; the Except in the result type is what the
caller of execute observes, so an uncaught exception would surface as an
error value.  Mirrors the source: early return when already running; the body
runs in a try whose catch only logs, swallowing every error including a
delivery-callback failure; the finally block clears the flag and reschedules
from the captured interval. -/
def executeAttempt (t : TaskState) (now : Nat)
    (pipeline : Except String (List AggregatedLiveScore))
    (deliver : List AggregatedLiveScore → Except String Unit) :
    Except String TaskState :=
  if t.running then .ok t
  else
    let t₁ := { t with running := true, lastRun := some now, inFlight := t.inFlight + 1 }
    let body : Except String Unit := do
      let aggregated ← pipeline
      deliver aggregated
    let afterCatch : TaskState :=
      match body with
      | .ok _ => t₁
      | .error _ => t₁
    .ok { afterCatch with
      running := false
      inFlight := afterCatch.inFlight - 1
      nextRun := now + t.capturedInterval }

/-- C9: whatever the pipeline and delivery-callback outcomes — both failures
included — execute returns normally (no exception reaches the tick loop's
caller), and the task ends not running with nextRun advanced to now + the
captured interval, so a failing execution never prevents rescheduling. -/
theorem execute_errors_contained (t : TaskState) (now : Nat)
    (pipeline : Except String (List AggregatedLiveScore))
    (deliver : List AggregatedLiveScore → Except String Unit)
    (h : t.running = false) :
    executeAttempt t now pipeline deliver =
      .ok { t with
        running := false
        lastRun := some now
        nextRun := now + t.capturedInterval } := by
  have hnr : ¬ (t.running = true) := by
    rw [h]
    simp
  rw [executeAttempt, if_neg hnr]
  cases hb : (do
      let aggregated ← pipeline
      deliver aggregated : Except String Unit) with
  | ok u => simp [hb]
  | error e => simp [hb]

/-- C9 witness: an execution whose fetch pipeline and delivery callback both
fail still returns normally, clears the flag and reschedules. -/
theorem execute_errors_contained_witness :
    executeAttempt (TaskState.mk 1000 1000 none 1000 false 0) 1500
        (.error "fetch failed") (fun _ => .error "callback failed") =
      .ok (TaskState.mk 1000 1000 (some 1500) 2500 false 0) :=
  execute_errors_contained (TaskState.mk 1000 1000 none 1000 false 0) 1500
    (.error "fetch failed") (fun _ => .error "callback failed") rfl

end ExampleApi
